import Mathlib

/-!
# Verification of the `srgn` scoped-view pipeline against its specification

This file gives a shallow embedding of the core of the repository:

* the greedy coroutine-style `Symbols` substitution (`src/stages/symbols/mod.rs`),
* its inverse `SymbolsInversion` (modelled from the spec, the action itself is
  not part of the sources),
* the scoped-view builder and view (`src/scoping/view.rs`): `explode` with its
  reconstruction assertion, the DOS line-ending repair, `build`, `squeeze`,
  `map_impl` and `has_any_in_scope`,
* the language scoper's positive/negative query split (`src/scoping/langs/mod.rs`)
  over an abstract model of tree-sitter queries, together with the ranges
  algebra (modelled from the spec, `ranges.rs` is not part of the sources),
* the driver's `apply` function (`src/main.rs`) with its `--fail-any` /
  `--fail-none` checks.

Strings are modelled as `List Char`; byte ranges of the original input are
modelled as index ranges into that character list (none of the verified
properties depends on multi-byte encodings).
-/

namespace Srgn

/-- Strings, modelled as character lists. -/
abbrev Str := List Char

/-! ## Symbols stage (`src/stages/symbols/mod.rs`)

The Rust implementation is a coroutine: it pops characters from a deque onto a
`stack`, replaces the stack by a Unicode symbol on a complete match, and pushes
a single over-fetched character back onto the deque (`undo_overfetching`).  The
embedding computes, for one iteration of the outer loop, the chunk of output
emitted and the remaining deque. -/

/-- The URL-consume state: pop characters (building up the stack) until the
first space or double-quote, which is also consumed; an exhausted deque ends
the loop.  Returns the consumed characters and the remaining deque. -/
def urlConsume : Str → Str × Str
  | [] => ([], [])
  | c :: r =>
    if c = ' ' ∨ c = '"' then ([c], r)
    else
      let p := urlConsume r
      (c :: p.1, p.2)

/-- One `fetch_next` against an expected character `want`, with `sofar` the
characters consumed so far in this iteration.  On a match, continue with
`next`; on a mismatch, undo the over-fetch (push the character back); on an
exhausted deque, emit the stack. -/
def fetchExpect (want : Char) (sofar : Str) (next : Str → Str × Str) : Str → Str × Str
  | [] => (sofar, [])
  | c :: r => if c = want then next r else (sofar, c :: r)

/-- The eight characters of the URL pivot. -/
def httpsChars : Str := ['h', 't', 't', 'p', 's', ':', '/', '/']

/-- The `'h'` branch of the scanner: expect the literal `ttps://` and then
enter the URL-consume state; any mismatch pushes the offending character back
and emits the consumed part verbatim. -/
def httpsTail (r : Str) : Str × Str :=
  fetchExpect 't' ['h'] (fun r1 =>
    fetchExpect 't' ['h', 't'] (fun r2 =>
      fetchExpect 'p' ['h', 't', 't'] (fun r3 =>
        fetchExpect 's' ['h', 't', 't', 'p'] (fun r4 =>
          fetchExpect ':' ['h', 't', 't', 'p', 's'] (fun r5 =>
            fetchExpect '/' ['h', 't', 't', 'p', 's', ':'] (fun r6 =>
              fetchExpect '/' ['h', 't', 't', 'p', 's', ':', '/'] (fun r7 =>
                let p := urlConsume r7
                (httpsChars ++ p.1, p.2)) r6) r5) r4) r3) r2) r1) r

/-- One iteration of the outer loop of `SymbolsStage::substitute`: given the
first character of the deque and the rest, return the output chunk emitted in
this iteration and the remaining deque. -/
def step (c : Char) (r : Str) : Str × Str :=
  if c = '-' then
    match r with
    | [] => (['-'], [])
    | c2 :: r2 =>
      if c2 = '-' then
        match r2 with
        | [] => (['–'], [])
        | c3 :: r3 =>
          if c3 = '-' then (['—'], r3)
          else if c3 = '>' then (['⟶'], r3)
          else (['–'], c3 :: r3)
      else if c2 = '>' then (['→'], r2)
      else (['-'], c2 :: r2)
  else if c = '<' then
    match r with
    | [] => (['<'], [])
    | c2 :: r2 =>
      if c2 = '-' then
        match r2 with
        | [] => (['←'], [])
        | c3 :: r3 =>
          if c3 = '-' then (['⟵'], r3)
          else if c3 = '>' then (['↔'], r3)
          else (['←'], c3 :: r3)
      else if c2 = '=' then (['≤'], r2)
      else (['<'], c2 :: r2)
  else if c = '>' then
    match r with
    | [] => (['>'], [])
    | c2 :: r2 => if c2 = '=' then (['≥'], r2) else (['>'], c2 :: r2)
  else if c = '!' then
    match r with
    | [] => (['!'], [])
    | c2 :: r2 => if c2 = '=' then (['≠'], r2) else (['!'], c2 :: r2)
  else if c = '=' then
    match r with
    | [] => (['='], [])
    | c2 :: r2 => if c2 = '>' then (['⇒'], r2) else (['='], c2 :: r2)
  else if c = 'h' then httpsTail r
  else ([c], r)

/-- The outer loop, with explicit fuel (each iteration consumes at least one
character from the deque, so `d.length` fuel always suffices; see
`substituteF_fuel`). -/
def substituteF : Nat → Str → Str
  | 0, _ => []
  | _, [] => []
  | fuel + 1, c :: r =>
    let p := step c r
    p.1 ++ substituteF fuel p.2

/-- `SymbolsStage::substitute`. -/
def substitute (d : Str) : Str := substituteF d.length d

/-- Modelled from the spec: the `SymbolsInversion` action is not among the
sources; per §4.7 it is the "inverse of `Symbols` using the same table".  Each
symbol of the table is mapped back to its ASCII source sequence; every other
character passes through unchanged. -/
def invSymChar (c : Char) : Str :=
  if c = '–' then ['-', '-']
  else if c = '—' then ['-', '-', '-']
  else if c = '→' then ['-', '>']
  else if c = '⟶' then ['-', '-', '>']
  else if c = '←' then ['<', '-']
  else if c = '⟵' then ['<', '-', '-']
  else if c = '↔' then ['<', '-', '>']
  else if c = '⇒' then ['=', '>']
  else if c = '≠' then ['!', '=']
  else if c = '≤' then ['<', '=']
  else if c = '≥' then ['>', '=']
  else [c]

/-- Modelled from the spec: `SymbolsInversion` (see `invSymChar`). -/
def symbolsInversion (d : Str) : Str := (d.map invSymChar).flatten

/-! ## Scoped view (`src/scoping/view.rs` and, for the parts of
`src/scoping/scope.rs` that are not among the sources, the spec's §3) -/

/-- Scope context (spec §3): capture-group data attached by the regex scoper.
Only its existence matters for the claims below. -/
structure ScopeContext where
  full : Str
  groups : List (Str × Str)
deriving Repr, DecidableEq

/-- `Scope` (spec §3): a tagged content/range pair, with optional context on
the in-scope side.  The read-only and read-write variants of the Rust code
differ only in ownership, which has no semantic counterpart here. -/
inductive Scope where
  | In : Str → Nat × Nat → Option ScopeContext → Scope
  | Out : Str → Nat × Nat → Scope
deriving Repr, DecidableEq

/-- The content covered by a scope. -/
def Scope.content : Scope → Str
  | .In c _ _ => c
  | .Out c _ => c

/-- Whether a scope is in scope. -/
def Scope.isIn : Scope → Bool
  | .In _ _ _ => true
  | .Out _ _ => false

/-- `ROScope::is_empty`: a scope is empty when it covers no characters. -/
def Scope.is_empty (s : Scope) : Bool := s.content.isEmpty

/-- A scoper, reduced to the `Scoper::scope` operation the view builder calls:
from the content of an in-scope segment and its global range, produce the
refined scopes. -/
abbrev ScoperFn := Str → Nat × Nat → List Scope

/-- `ScopedViewBuilder`: the scopes so far plus the original input
(`viewee`), against which the reconstruction assertion compares. -/
structure ScopedViewBuilder where
  scopes : List Scope
  viewee : Str
deriving Repr, DecidableEq

/-- `ScopedViewBuilder::new`: initially the entire input is a single in-scope
segment covering `[0, len)` with no context. -/
def ScopedViewBuilder.new (input : Str) : ScopedViewBuilder :=
  ⟨[Scope.In input (0, input.length) none], input⟩

/-- Concatenation of all contents, in order (`ROScopes == &str`, and also the
`Display` rendering of a view). -/
def reconstruct (scopes : List Scope) : Str := (scopes.map Scope.content).flatten

/-- The loop body of `ScopedViewBuilder::explode`: skip empty scopes, replace
each in-scope segment by the scoper's output with empty results dropped, and
carry out-of-scope segments through unchanged. -/
def explodeStep (scoper : ScoperFn) (scopes : List Scope) : List Scope :=
  (scopes.map (fun s =>
    if s.is_empty then []
    else
      match s with
      | Scope.In c r _ => (scoper c r).filter (fun t => !t.is_empty)
      | Scope.Out c r => [Scope.Out c r])).flatten

/-- `ScopedViewBuilder::explode`: run the loop body, then assert that the new
scopes still reconstruct the original input; `none` models the programmatic
assertion failure (process abort) on a buggy scoper. -/
def ScopedViewBuilder.explode (b : ScopedViewBuilder) (scoper : ScoperFn) :
    Option ScopedViewBuilder :=
  let new := explodeStep scoper b.scopes
  if reconstruct new = b.viewee then some ⟨new, b.viewee⟩ else none

/-- A sequence of `explode` calls, as performed by the driver. -/
def explodeAll (scopers : List ScoperFn) (b : ScopedViewBuilder) :
    Option ScopedViewBuilder :=
  scopers.foldlM ScopedViewBuilder.explode b

/-! ### Normalization of raw scoper ranges

Modelled from the spec (§4.2, §4.5): `Scoper::scope_raw` returns raw, possibly
unsorted ranges with optional context; the caller normalizes them (sort, merge
overlaps) and classifies the content into alternating in/out runs, translating
local offsets to global ones.  The corresponding `scoping/mod.rs` and
`scope.rs` code is not among the sources. -/

/-- The sub-list of `c` covering the index interval `[a, b)`. -/
def slice (c : Str) (a b : Nat) : Str := (c.drop a).take (b - a)

/-- Raw scoper output: ranges, each with optional context. -/
abbrev RawRanges := List ((Nat × Nat) × Option ScopeContext)

/-- Insertion into a list sorted by range start. -/
def insertByStart (x : (Nat × Nat) × Option ScopeContext) : RawRanges → RawRanges
  | [] => [x]
  | y :: ys => if x.1.1 ≤ y.1.1 then x :: y :: ys else y :: insertByStart x ys

/-- Sort raw ranges by start (spec §4.5: "sort, merge overlaps"; overlaps are
clamped away during the walk in `fromRawGo`). -/
def sortByStart (l : RawRanges) : RawRanges := l.foldr insertByStart []

/-- Walk sorted raw ranges over content `c`, with `off` the global offset of
`c` and `pos` the current local position: emit an out-of-scope gap before each
in-scope range (clamped to `[pos, c.length)`), and a trailing out-of-scope
segment. -/
def fromRawGo (c : Str) (off : Nat) (pos : Nat) : RawRanges → List Scope
  | [] =>
    if pos < c.length then [Scope.Out (slice c pos c.length) (off + pos, off + c.length)]
    else []
  | (rg, ctx) :: rest =>
    let s := max rg.1 pos
    let e := min rg.2 c.length
    if s < e then
      (if pos < s then [Scope.Out (slice c pos s) (off + pos, off + s)] else [])
        ++ Scope.In (slice c s e) (off + s, off + e) ctx :: fromRawGo c off e rest
    else fromRawGo c off pos rest

/-- Modelled from the spec: the default `Scoper::scope`, turning a
`scope_raw`-style function into a `ScoperFn` by normalizing its raw ranges. -/
def scopeOfRaw (raw : Str → RawRanges) : ScoperFn :=
  fun c r => fromRawGo c r.1 0 (sortByStart (raw c))

/-! ### DOS line-ending repair (`ScopedViewBuilder::build` /
`apply_dos_line_endings_fix` in `src/scoping/view.rs`; the `DosFix` scoper of
`scoping/dosfix.rs` is not among the sources and is modelled from the spec) -/

/-- Emit the pending in-scope run, if non-empty. -/
def flushIn (off : Nat) (acc : Str) : List Scope :=
  if acc.isEmpty then [] else [Scope.In acc (off, off + acc.length) none]

/-- Modelled from the spec (§4.5): the `DosFix` scoper re-scopes a segment so
that every `\r\n` pair — and a trailing `\r`, whose `\n` may sit in the
following scope — becomes a single out-of-scope unit; everything else stays in
scope, in maximal runs.  `off` is the global offset of the start of the
pending run `acc`. -/
def dosfixGo (off : Nat) (acc : Str) : Str → List Scope
  | [] => flushIn off acc
  | c :: rest =>
    if c = '\r' then
      match rest with
      | [] => flushIn off acc ++ [Scope.Out ['\r'] (off + acc.length, off + acc.length + 1)]
      | c2 :: rest2 =>
        if c2 = '\n' then
          flushIn off acc
            ++ Scope.Out ['\r', '\n'] (off + acc.length, off + acc.length + 2)
              :: dosfixGo (off + acc.length + 2) [] rest2
        else dosfixGo off (acc ++ [c]) (c2 :: rest2)
    else dosfixGo off (acc ++ [c]) rest
termination_by l => l.length
decreasing_by all_goals simp +arith [List.length]

/-- Modelled from the spec: the `DosFix` scoper as a `ScoperFn`. -/
def dosFixScoper : ScoperFn := fun c r => dosfixGo r.1 [] c

/-- The window condition of `apply_dos_line_endings_fix`: an in-scope segment
ending in `\r` directly followed by an out-of-scope segment starting with
`\n`. -/
def splitWindow (a b : Scope) : Bool :=
  a.isIn && !b.isIn && (a.content.getLast? == some '\r') && (b.content.head? == some '\n')

/-- `windows(2).any(..)` over the scopes. -/
def anyWindow (l : List Scope) : Bool := (l.zip l.tail).any fun p => splitWindow p.1 p.2

/-- `ScopedViewBuilder::apply_dos_line_endings_fix`: when a split CRLF is
detected, run a final synthetic `explode` with the `DosFix` scoper (`none`
models the — unreachable — assertion failure inside that `explode`). -/
def ScopedViewBuilder.apply_dos_line_endings_fix (b : ScopedViewBuilder) :
    Option ScopedViewBuilder :=
  if anyWindow b.scopes then b.explode dosFixScoper else some b

/-- `ScopedView`: the writable view.  The read-only to read-write conversion
of the Rust code only changes ownership, so it is the identity here. -/
structure ScopedView where
  scopes : List Scope
deriving Repr, DecidableEq

/-- `ScopedViewBuilder::build`: apply the DOS line-ending fix, then freeze. -/
def ScopedViewBuilder.build (b : ScopedViewBuilder) : Option ScopedView :=
  b.apply_dos_line_endings_fix.map fun b2 => ⟨b2.scopes⟩

/-- `ScopedView::has_any_in_scope`. -/
def ScopedView.has_any_in_scope (v : ScopedView) : Bool := v.scopes.any Scope.isIn

/-- The `retain` loop of `ScopedView::squeeze`, with `prev` the
`prev_was_in` flag: drop an in-scope segment whenever the previously visited
segment was in scope, and update the flag for every visited segment. -/
def squeezeGo (prev : Bool) : List Scope → List Scope
  | [] => []
  | s :: rest =>
    if !(prev && s.isIn) then s :: squeezeGo s.isIn rest
    else squeezeGo s.isIn rest

/-- `ScopedView::squeeze`. -/
def ScopedView.squeeze (v : ScopedView) : ScopedView := ⟨squeezeGo false v.scopes⟩

/-! ### Actions and `map_impl` -/

/-- An action error (`ActionError` in the Rust code); its payload is
irrelevant here. -/
structure ActionError where
  msg : Str
deriving Repr, DecidableEq

/-- An action, reduced to the two methods `map_impl` calls: the infallible
context-free `act` and the fallible context-aware `act_with_context`. -/
structure ActionFn where
  act : Str → Str
  act_with_context : Str → ScopeContext → Except ActionError Str

/-- The per-scope body of `ScopedView::map_impl`: an in-scope segment is
replaced by the action's output (the context-aware method is consulted exactly
when context is present *and* `use_context` holds); out-of-scope segments pass
through. -/
def mapScope (a : ActionFn) (use_context : Bool) : Scope → Except ActionError Scope
  | Scope.In content range ctx =>
    match ctx, use_context with
    | some c, true =>
      match a.act_with_context content c with
      | Except.error e => Except.error e
      | Except.ok res => Except.ok (Scope.In res range (some c))
    | _, _ => Except.ok (Scope.In (a.act content) range ctx)
  | Scope.Out content range => Except.ok (Scope.Out content range)

/-- `ScopedView::map_impl`, iterating `mapScope` over the scopes in order and
propagating the first failure. -/
def map_impl (a : ActionFn) (use_context : Bool) : List Scope → Except ActionError (List Scope)
  | [] => Except.ok []
  | s :: rest =>
    match mapScope a use_context s with
    | Except.error e => Except.error e
    | Except.ok s2 =>
      match map_impl a use_context rest with
      | Except.error e => Except.error e
      | Except.ok rest2 => Except.ok (s2 :: rest2)

/-- `ScopedView::map_without_context` delegates to `map_impl` with
`use_context = false` and `.expect`s the result; `none` models the panic. -/
def map_without_context (a : ActionFn) (scopes : List Scope) : Option (List Scope) :=
  (map_impl a false scopes).toOption

/-- The context-free replacement `map_impl` performs on a single scope when it
never consults the context. -/
def actFree (a : ActionFn) : Scope → Scope
  | Scope.In c r ctx => Scope.In (a.act c) r ctx
  | Scope.Out c r => Scope.Out c r

/-! ## The driver's `apply` (`src/main.rs`) -/

/-- `ApplicationError` of `src/main.rs`. -/
inductive ApplicationError where
  | SomeInScope
  | NoneInScope
  | NoFilesFound
deriving Repr, DecidableEq

/-- The errors `apply` can return: its own policy errors, or a propagated
action error from `map_with_context`. -/
inductive ApplyErr where
  | app : ApplicationError → ApplyErr
  | action : ActionError → ApplyErr
deriving Repr, DecidableEq

/-- The action loop of `apply`: each action is mapped over the view via
`map_with_context` (`map_impl` with `use_context = true`), propagating
failures. -/
def mapAllActions (actions : List ActionFn) (scopes : List Scope) :
    Except ActionError (List Scope) :=
  actions.foldlM (fun sc a => map_impl a true sc) scopes

/-- `apply` of `src/main.rs`, for an input buffer `buf`: build the view by
exploding all scopers (the outer `Option` models the process aborting on the
explode assertion), check `--fail-none` and then `--fail-any` *before* any
action runs, optionally squeeze, run the actions, and render the result — the
destination receives output only in the `Except.ok` case. -/
def apply (scopers : List ScoperFn) (actions : List ActionFn)
    (fail_none fail_any squeeze : Bool) (buf : Str) : Option (Except ApplyErr Str) :=
  match explodeAll scopers (ScopedViewBuilder.new buf) with
  | none => none
  | some b =>
    match b.build with
    | none => none
    | some v =>
      some
        (if fail_none && !v.has_any_in_scope then
          Except.error (ApplyErr.app ApplicationError.NoneInScope)
        else if fail_any && v.has_any_in_scope then
          Except.error (ApplyErr.app ApplicationError.SomeInScope)
        else
          let v2 := if squeeze then v.squeeze else v
          match mapAllActions actions v2.scopes with
          | Except.error e => Except.error (ApplyErr.action e)
          | Except.ok scopes2 => Except.ok (reconstruct scopes2))

/-! ## Ranges algebra and the language scoper
(`src/scoping/langs/mod.rs`; the `Ranges` type itself is modelled from the
spec's §4.1, `ranges.rs` not being among the sources) -/

/-- An ordered set of ranges, as a list of half-open intervals. -/
abbrev Ranges := List (Nat × Nat)

/-- Modelled from the spec (§4.1): the fold step of `Ranges::merge`, assuming
the input arrives sorted by start: fold a range into the previous one when
they touch or overlap. -/
def mergeFold (acc : Ranges) (r : Nat × Nat) : Ranges :=
  match acc with
  | [] => [r]
  | p :: rest => if r.1 ≤ p.2 then (p.1, max p.2 r.2) :: rest else r :: p :: rest

/-- Insertion into a list of ranges sorted by start. -/
def rangeInsert (x : Nat × Nat) : Ranges → Ranges
  | [] => [x]
  | y :: ys => if x.1 ≤ y.1 then x :: y :: ys else y :: rangeInsert x ys

/-- Modelled from the spec (§4.1): `Ranges::merge` — sort by start, then fold,
keeping the accumulator reversed and restoring order at the end. -/
def mergeRanges (l : Ranges) : Ranges :=
  ((l.foldr rangeInsert []).foldl mergeFold []).reverse

/-- Modelled from the spec (§4.1): the portions of the single range `a` not
covered by any range of `b` (both already merged). -/
def diffOne (a : Nat × Nat) : Ranges → Ranges
  | [] => if a.1 < a.2 then [a] else []
  | (s, e) :: rest =>
    (if a.1 < min a.2 s then [(a.1, min a.2 s)] else [])
      ++ (if max a.1 e < a.2 then diffOne (max a.1 e, a.2) rest else [])

/-- Modelled from the spec (§4.1): binary set difference of ranges. -/
def diffRanges (a b : Ranges) : Ranges := a.flatMap fun r => diffOne r b

/-- An abstract model of one capture of a tree-sitter query: its name, and the
ranges of the nodes it captures on a given input (tree-sitter parsing and
matching are external collaborators). -/
structure TSCapture where
  name : Str
  hits : Str → Ranges

/-- An abstract model of a compiled tree-sitter query: its list of captures.
`disable_capture` removes a capture by name. -/
structure TSQuery where
  captures : List TSCapture

/-- The names of a query's captures (`TSQuery::capture_names`). -/
def TSQuery.capture_names (q : TSQuery) : List Str := q.captures.map TSCapture.name

/-- `TSQuery::disable_capture`. -/
def TSQuery.disable_capture (q : TSQuery) (n : Str) : TSQuery :=
  ⟨q.captures.filter fun c => c.name != n⟩

/-- The sentinel capture-name prefix (`IGNORE` in `src/scoping/langs/mod.rs`). -/
def IGNORE : Str := "_SRGN_IGNORE".toList

/-- `Language`: the positive query and the optional negative query. -/
structure Language where
  positive_query : TSQuery
  negative_query : Option TSQuery

/-- `Language::new`: build the negative query exactly when some capture name
starts with the sentinel, by disabling every acknowledged (non-sentinel)
capture in a copy of the query. -/
def Language.new (query : TSQuery) : Language :=
  let is_ignored := fun (n : Str) => IGNORE.isPrefixOf n
  let has_ignored_captures := query.capture_names.any is_ignored
  let negative_query :=
    if has_ignored_captures then
      some
        (let acknowledged := query.capture_names.filter fun n => !is_ignored n
        acknowledged.foldl TSQuery.disable_capture query)
    else none
  ⟨query, negative_query⟩

/-- The query-running closure inside `scope_via_query`: collect the ranges of
all captured nodes, then merge. -/
def runQuery (q : TSQuery) (input : Str) : Ranges :=
  mergeRanges (q.captures.flatMap fun c => c.hits input)

/-- `LanguageScoper::scope_via_query`: run the positive query; if a negative
query exists, subtract its ranges. -/
def scope_via_query (lang : Language) (input : Str) : Ranges :=
  let ranges := runQuery lang.positive_query input
  match lang.negative_query with
  | some nq => diffRanges ranges (runQuery nq input)
  | none => ranges

/-- The `Scoper` impl for language scopers: `scope_via_query` with no context
attached to any range. -/
def langScopeRaw (lang : Language) (input : Str) : RawRanges :=
  (scope_via_query lang input).map fun r => (r, none)

/-- A concrete sentinel-named capture, for witnesses. -/
def witnessCapA : TSCapture := ⟨"_SRGN_IGNOREfoo".toList, fun _ => []⟩

/-- A concrete acknowledged capture, for witnesses. -/
def witnessCapB : TSCapture := ⟨"cap".toList, fun _ => []⟩

/-- A concrete query holding one sentinel and one acknowledged capture. -/
def witnessQuery : TSQuery := ⟨[witnessCapA, witnessCapB]⟩

/-! ## Statement-level helpers -/

/-- The `squeeze` retention criterion, phrased against the *original*
predecessor (`prev = none` for the first element): keep a scope unless it is
in scope and its predecessor was, too. -/
def keepSpec (prev : Option Scope) (s : Scope) : Bool :=
  !(prev.elim false Scope.isIn && s.isIn)

/-- A scope boundary lying between the `\r` and the `\n` of a CRLF pair:
some adjacent pair of scopes has the left content ending in `\r` and the right
content starting with `\n`. -/
def anyBoundaryInsideCRLF (l : List Scope) : Bool :=
  (l.zip l.tail).any fun p =>
    (p.1.content.getLast? == some '\r') && (p.2.content.head? == some '\n')

/-- A concrete scoper matching exactly the index range `[2, 3)` (as a
`Regex` scoper does for a pattern matching the single character there). -/
def cexScoper : ScoperFn := scopeOfRaw fun _ => [((2, 3), none)]

/-- The concrete input `a\r\nb`. -/
def cexInput : Str := ['a', '\r', '\n', 'b']

/-! ## Basic lemmas -/

@[simp]
theorem reconstruct_nil : reconstruct [] = [] := rfl

@[simp]
theorem reconstruct_cons (s : Scope) (l : List Scope) :
    reconstruct (s :: l) = s.content ++ reconstruct l := rfl

@[simp]
theorem explodeStep_nil (sc : ScoperFn) : explodeStep sc [] = [] := rfl

theorem explodeStep_cons (sc : ScoperFn) (s : Scope) (l : List Scope) :
    explodeStep sc (s :: l)
      = (if s.is_empty then []
          else
            match s with
            | Scope.In c r _ => (sc c r).filter fun t => !t.is_empty
            | Scope.Out c r => [Scope.Out c r])
        ++ explodeStep sc l := rfl

theorem content_eq_nil_of_is_empty {s : Scope} (h : s.is_empty = true) :
    s.content = [] := by
  simpa [Scope.is_empty, List.isEmpty_iff] using h

/-! ## C10: the fresh builder -/

/-- Claim C10: `ScopedViewBuilder::new` produces exactly one `In` scope
covering `[0, len)` with no context — including for the empty input — and a
view built from empty input without any explode contains that empty `In`
scope, so `has_any_in_scope` returns `true`. -/
theorem builder_new_single_in_scope :
    (∀ s : Str, (ScopedViewBuilder.new s).scopes = [Scope.In s (0, s.length) none])
    ∧ (ScopedViewBuilder.new ([] : Str)).build = some ⟨[Scope.In [] (0, 0) none]⟩
    ∧ ScopedView.has_any_in_scope ⟨[Scope.In [] (0, 0) none]⟩ = true :=
  ⟨fun _ => rfl, rfl, rfl⟩

/-! ## C9: `map_without_context` is infallible -/

/-- Claim C9: `map_without_context` invokes `map_impl` with
`use_context = false`, so the fallible context-aware branch is never taken:
`map_impl` returns `Ok` of the context-free mapping of every scope, and the
`.expect` in `map_without_context` always succeeds. -/
theorem map_without_context_infallible (a : ActionFn) (scopes : List Scope) :
    map_impl a false scopes = Except.ok (scopes.map (actFree a))
    ∧ map_without_context a scopes = some (scopes.map (actFree a)) := by
  have h : map_impl a false scopes = Except.ok (scopes.map (actFree a)) := by
    induction scopes with
    | nil => rfl
    | cons s rest ih =>
      cases s with
      | In c r ctx =>
        cases ctx <;> simp [map_impl, mapScope, actFree, ih]
      | Out c r => simp [map_impl, mapScope, actFree, ih]
  exact ⟨h, by simp [map_without_context, h, Except.toOption]⟩

/-! ## C7: `squeeze` -/

theorem squeezeGo_eq_filter (l : List Scope) (prev : Option Scope) :
    squeezeGo (prev.elim false Scope.isIn) l
      = ((prev :: l.map some).zip l).filterMap
          fun p => if keepSpec p.1 p.2 then some p.2 else none := by
  induction l generalizing prev with
  | nil => rfl
  | cons s rest ih =>
    have hrec := ih (some s)
    simp only [Option.elim_some] at hrec
    cases prev with
    | none =>
      have hsq : squeezeGo false (s :: rest) = s :: squeezeGo s.isIn rest := by
        simp [squeezeGo]
      have hks : keepSpec none s = true := by simp [keepSpec]
      simp only [Option.elim_none, hsq, hrec, List.map_cons, List.zip_cons_cons,
        List.filterMap_cons]
      simp [hks]
    | some p =>
      simp only [Option.elim_some]
      cases hps : (p.isIn && s.isIn) with
      | true =>
        have hks : keepSpec (some p) s = false := by simp [keepSpec, hps]
        have hsq : squeezeGo p.isIn (s :: rest) = squeezeGo s.isIn rest := by
          simp [squeezeGo, hps]
        simp only [hsq, hrec, List.map_cons, List.zip_cons_cons, List.filterMap_cons]
        simp [hks]
      | false =>
        have hks : keepSpec (some p) s = true := by simp [keepSpec, hps]
        have hsq : squeezeGo p.isIn (s :: rest) = s :: squeezeGo s.isIn rest := by
          simp [squeezeGo, hps]
        simp only [hsq, hrec, List.map_cons, List.zip_cons_cons, List.filterMap_cons]
        simp [hks]

theorem squeezeGo_head_not_in (l : List Scope) :
    ∀ x, (squeezeGo true l).head? = some x → x.isIn = false := by
  induction l with
  | nil => intro x hx; simp [squeezeGo] at hx
  | cons s rest ih =>
    intro x hx
    cases hs : s.isIn with
    | true => exact ih x (by simpa [squeezeGo, hs] using hx)
    | false =>
      simp [squeezeGo, hs] at hx
      rw [← hx]
      exact hs

theorem squeezeGo_chain (l : List Scope) (b : Bool) :
    List.Chain' (fun a c => ¬(a.isIn = true ∧ c.isIn = true)) (squeezeGo b l) := by
  induction l generalizing b with
  | nil => simp [squeezeGo]
  | cons s rest ih =>
    cases hbs : (b && s.isIn) with
    | true => simpa [squeezeGo, hbs] using ih s.isIn
    | false =>
      rw [squeezeGo, hbs]
      simp only [Bool.not_false, if_pos]
      rw [List.chain'_cons']
      refine ⟨?_, ih s.isIn⟩
      intro y hy
      cases hs : s.isIn with
      | true =>
        have := squeezeGo_head_not_in rest y (by simpa [hs] using hy)
        simp [this]
      | false => simp [hs]

/-- Claim C7: `squeeze` removes exactly those `In` scopes whose immediate
predecessor (in the original sequence) is also `In`, keeps every `Out` scope,
and afterwards no two adjacent scopes are both `In`. -/
theorem squeeze_spec (v : ScopedView) :
    v.squeeze.scopes
      = ((((none : Option Scope) :: v.scopes.map some).zip v.scopes).filterMap
          fun p => if keepSpec p.1 p.2 then some p.2 else none)
    ∧ (∀ s ∈ v.scopes, s.isIn = false → s ∈ v.squeeze.scopes)
    ∧ List.Chain' (fun a c => ¬(a.isIn = true ∧ c.isIn = true)) v.squeeze.scopes := by
  refine ⟨squeezeGo_eq_filter v.scopes none, ?_, squeezeGo_chain v.scopes false⟩
  intro s hs hout
  have : ∀ (l : List Scope) (b : Bool), s ∈ l → s ∈ squeezeGo b l := by
    intro l
    induction l with
    | nil => intro b h; simp at h
    | cons t rest ih =>
      intro b h
      rcases List.mem_cons.mp h with rfl | h
      · simp [squeezeGo, hout]
      · cases hbt : (b && t.isIn) with
        | true => simpa [squeezeGo, hbt] using ih t.isIn h
        | false =>
          have hmem := ih t.isIn h
          simp [squeezeGo, hbt]
          exact Or.inr hmem
  exact this v.scopes false hs

/-- Witness for C7 at a concrete view: `[In, In, Out, In]` squeezes to
`[In, Out, In]`. -/
theorem squeeze_spec_witness :
    (⟨[Scope.In ['a'] (0, 1) none, Scope.In ['b'] (1, 2) none,
        Scope.Out ['c'] (2, 3), Scope.In ['d'] (3, 4) none]⟩ : ScopedView).squeeze.scopes
      = [Scope.In ['a'] (0, 1) none, Scope.Out ['c'] (2, 3), Scope.In ['d'] (3, 4) none]
    ∧ Scope.Out ['c'] (2, 3)
        ∈ (⟨[Scope.In ['a'] (0, 1) none, Scope.In ['b'] (1, 2) none,
            Scope.Out ['c'] (2, 3), Scope.In ['d'] (3, 4) none]⟩ : ScopedView).squeeze.scopes := by
  have h := squeeze_spec ⟨[Scope.In ['a'] (0, 1) none, Scope.In ['b'] (1, 2) none,
    Scope.Out ['c'] (2, 3), Scope.In ['d'] (3, 4) none]⟩
  exact ⟨by rw [h.1]; rfl,
    h.2.1 (Scope.Out ['c'] (2, 3)) (by simp) rfl⟩

/-! ## C1: reconstruction and the explode assertion -/

theorem explode_eq_some {b b2 : ScopedViewBuilder} {sc : ScoperFn}
    (h : b.explode sc = some b2) :
    reconstruct (explodeStep sc b.scopes) = b.viewee
    ∧ b2 = ⟨explodeStep sc b.scopes, b.viewee⟩ := by
  unfold ScopedViewBuilder.explode at h
  by_cases hr : reconstruct (explodeStep sc b.scopes) = b.viewee
  · exact ⟨hr, by simpa [hr] using h.symm⟩
  · simp [hr] at h

theorem explode_none_iff (b : ScopedViewBuilder) (sc : ScoperFn) :
    b.explode sc = none ↔ reconstruct (explodeStep sc b.scopes) ≠ b.viewee := by
  unfold ScopedViewBuilder.explode
  by_cases hr : reconstruct (explodeStep sc b.scopes) = b.viewee <;> simp [hr]

theorem explodeAll_some {scopers : List ScoperFn} {b0 b : ScopedViewBuilder}
    (h : explodeAll scopers b0 = some b) :
    b.viewee = b0.viewee
    ∧ (reconstruct b0.scopes = b0.viewee → reconstruct b.scopes = b0.viewee) := by
  induction scopers generalizing b0 with
  | nil =>
    have hb : b = b0 := by simpa [explodeAll] using h.symm
    subst hb
    exact ⟨rfl, fun hr => hr⟩
  | cons sc rest ih =>
    rw [explodeAll, List.foldlM_cons] at h
    cases hx : b0.explode sc with
    | none => rw [hx] at h; simp at h
    | some b1 =>
      rw [hx] at h
      have h1 := explode_eq_some hx
      have h2 := ih (h : explodeAll rest b1 = some b)
      have hv : b1.viewee = b0.viewee := by rw [h1.2]
      have hrec : reconstruct b1.scopes = b0.viewee := by rw [h1.2]; exact h1.1
      exact ⟨by rw [h2.1, hv], fun _ => by
        have := h2.2 (by rw [hrec, hv]); rw [this, hv]⟩

theorem reconstruct_filter_nonempty (l : List Scope) :
    reconstruct (l.filter fun t => !t.is_empty) = reconstruct l := by
  induction l with
  | nil => rfl
  | cons s rest ih =>
    cases hs : s.is_empty with
    | true =>
      have := content_eq_nil_of_is_empty hs
      simp [List.filter_cons, hs, ih, this]
    | false => simp [List.filter_cons, hs, ih]

theorem slice_append_drop (c : Str) {a b : Nat} (hab : a ≤ b) (hb : b ≤ c.length) :
    slice c a b ++ c.drop b = c.drop a := by
  have h1 : c.drop b = (c.drop a).drop (b - a) := by
    rw [List.drop_drop, Nat.add_sub_cancel' hab]
  rw [slice, h1, List.take_append_drop]

theorem fromRawGo_reconstruct (c : Str) (off : Nat) (raws : RawRanges) :
    ∀ pos, pos ≤ c.length → reconstruct (fromRawGo c off pos raws) = c.drop pos := by
  induction raws with
  | nil =>
    intro pos hpos
    by_cases hlt : pos < c.length
    · rw [fromRawGo, if_pos hlt]
      have : slice c pos c.length = c.drop pos := by
        rw [slice]
        exact List.take_of_length_le (by simp)
      simp [this, Scope.content]
    · have heq : pos = c.length := le_antisymm hpos (le_of_not_lt hlt)
      rw [fromRawGo, if_neg hlt]
      simp [heq, List.drop_eq_nil_of_le (le_of_eq heq.symm)]
  | cons x rest ih =>
    intro pos hpos
    rcases x with ⟨rg, ctx⟩
    rw [fromRawGo]
    by_cases hse : max rg.1 pos < min rg.2 c.length
    · rw [if_pos hse]
      have hpos_s : pos ≤ max rg.1 pos := le_max_right _ _
      have hs_e : max rg.1 pos ≤ min rg.2 c.length := le_of_lt hse
      have he_len : min rg.2 c.length ≤ c.length := min_le_right _ _
      have hrec := ih (min rg.2 c.length) he_len
      by_cases hgap : pos < max rg.1 pos
      · rw [if_pos hgap]
        simp only [List.cons_append, List.nil_append, reconstruct_cons, Scope.content,
          List.append_assoc, hrec]
        rw [slice_append_drop c hs_e he_len,
          slice_append_drop c hpos_s (le_trans hs_e he_len)]
      · have hps : max rg.1 pos = pos := le_antisymm (le_of_not_lt hgap) hpos_s
        rw [if_neg hgap]
        simp only [List.nil_append, reconstruct_cons, Scope.content, hrec]
        rw [hps, slice_append_drop c (hps ▸ hs_e) he_len]
    · rw [if_neg hse]
      exact ih pos hpos

theorem scopeOfRaw_chunk_reconstruct (raw : Str → RawRanges) (c : Str) (r : Nat × Nat) :
    reconstruct ((scopeOfRaw raw c r).filter fun t => !t.is_empty) = c := by
  rw [reconstruct_filter_nonempty, scopeOfRaw]
  simpa using fromRawGo_reconstruct c r.1 (sortByStart (raw c)) 0 (Nat.zero_le _)

theorem explodeStep_reconstruct (sc : ScoperFn)
    (hsc : ∀ c r, reconstruct ((sc c r).filter fun t => !t.is_empty) = c)
    (scopes : List Scope) : reconstruct (explodeStep sc scopes) = reconstruct scopes := by
  induction scopes with
  | nil => rfl
  | cons s rest ih =>
    rw [explodeStep_cons]
    cases hs : s.is_empty with
    | true =>
      have hc := content_eq_nil_of_is_empty hs
      simp only [if_pos, reconstruct_cons, hc, List.nil_append]
      have : reconstruct ([] ++ explodeStep sc rest) = reconstruct rest := by
        simpa using ih
      simpa [hs] using this
    | false =>
      cases s with
      | In c r ctx =>
        have : reconstruct ((sc c r).filter (fun t => !t.is_empty) ++ explodeStep sc rest)
            = c ++ reconstruct rest := by
          rw [reconstruct, List.map_append, List.flatten_append, ← reconstruct, ← reconstruct,
            hsc c r, ih]
        simpa [hs, Scope.content] using this
      | Out c r =>
        simpa [hs, Scope.content] using ih

/-- Claim C1: after any sequence of `explode`s that did not abort, the view's
contents concatenate to the original input exactly; a further `explode` aborts
(assertion failure) precisely when its scoper breaks that reconstruction; and
a scoper obtained by normalizing raw ranges (the spec's §4.5 algorithm) never
triggers the abort. -/
theorem explode_reconstruction (s : Str) (scopers : List ScoperFn) (b : ScopedViewBuilder)
    (h : explodeAll scopers (ScopedViewBuilder.new s) = some b) :
    reconstruct b.scopes = s
    ∧ (∀ sc : ScoperFn, b.explode sc = none ↔ reconstruct (explodeStep sc b.scopes) ≠ s)
    ∧ ∀ raw : Str → RawRanges, (b.explode (scopeOfRaw raw)).isSome = true := by
  have hnew : reconstruct (ScopedViewBuilder.new s).scopes = s := by
    simp [ScopedViewBuilder.new, Scope.content]
  have hall := explodeAll_some h
  have hview : b.viewee = s := hall.1
  have hrec : reconstruct b.scopes = s := by
    have := hall.2 (by simpa [ScopedViewBuilder.new] using hnew)
    simpa [ScopedViewBuilder.new] using this
  refine ⟨hrec, fun sc => by rw [explode_none_iff, hview], fun raw => ?_⟩
  have : reconstruct (explodeStep (scopeOfRaw raw) b.scopes) = b.viewee := by
    rw [explodeStep_reconstruct (scopeOfRaw raw) (scopeOfRaw_chunk_reconstruct raw) b.scopes,
      hrec, hview]
  unfold ScopedViewBuilder.explode
  simp [this]

/-- Witness for C1 at a concrete input and scoper: exploding `ab` with a
scoper that matches `[0, 1)` reconstructs the input. -/
theorem explode_reconstruction_witness :
    reconstruct (ScopedViewBuilder.mk
      [Scope.In ['a'] (0, 1) none, Scope.Out ['b'] (1, 2)] ['a', 'b']).scopes = ['a', 'b'] :=
  (explode_reconstruction ['a', 'b'] [scopeOfRaw fun _ => [((0, 1), none)]]
    ⟨[Scope.In ['a'] (0, 1) none, Scope.Out ['b'] (1, 2)], ['a', 'b']⟩ (by decide)).1

/-! ## C8: the driver's fail-any / fail-none policy -/

theorem action_branch_ne_app (actions : List ActionFn) (sc : List Scope)
    (x : ApplicationError) :
    (match mapAllActions actions sc with
      | Except.error e => Except.error (ApplyErr.action e)
      | Except.ok scopes2 => Except.ok (reconstruct scopes2)) ≠
      Except.error (ApplyErr.app x) := by
  cases mapAllActions actions sc <;> simp

/-- Claim C8: `apply` returns the "some input was in scope" error exactly when
`fail_any` is set and the built view has an `In` scope, and the "nothing in
scope" error exactly when `fail_none` is set and it has none; the checks run
on the freshly built view, before any action output exists, for every choice
of actions and flags. -/
theorem apply_fail_policy (scopers : List ScoperFn) (actions : List ActionFn)
    (fail_none fail_any squeeze : Bool) (buf : Str) (b : ScopedViewBuilder)
    (v : ScopedView) (hb : explodeAll scopers (ScopedViewBuilder.new buf) = some b)
    (hv : b.build = some v) :
    (apply scopers actions fail_none fail_any squeeze buf
        = some (Except.error (ApplyErr.app ApplicationError.SomeInScope))
      ↔ fail_any = true ∧ v.has_any_in_scope = true)
    ∧ (apply scopers actions fail_none fail_any squeeze buf
        = some (Except.error (ApplyErr.app ApplicationError.NoneInScope))
      ↔ fail_none = true ∧ v.has_any_in_scope = false) := by
  rw [apply, hb]
  simp only [hv]
  cases fail_none <;> cases fail_any <;> cases hin : v.has_any_in_scope <;>
    simp [hin, action_branch_ne_app]

/-- Witness for C8: with no scoper and `fail_any` set, the whole input is in
scope and `apply` fails with `SomeInScope`. -/
theorem apply_fail_policy_witness :
    (apply [] [] false true false ['x']
        = some (Except.error (ApplyErr.app ApplicationError.SomeInScope))
      ↔ true = true ∧ ScopedView.has_any_in_scope ⟨[Scope.In ['x'] (0, 1) none]⟩ = true)
    ∧ (apply [] [] false true false ['x']
        = some (Except.error (ApplyErr.app ApplicationError.NoneInScope))
      ↔ false = true ∧ ScopedView.has_any_in_scope ⟨[Scope.In ['x'] (0, 1) none]⟩ = false) :=
  apply_fail_policy [] [] false true false ['x']
    ⟨[Scope.In ['x'] (0, 1) none], ['x']⟩ ⟨[Scope.In ['x'] (0, 1) none]⟩
    (by decide) (by decide)

/-! ## Symbols: supporting lemmas -/

theorem urlConsume_suffix (s : Str) : (urlConsume s).2.IsSuffix s := by
  induction s with
  | nil => simp [urlConsume]
  | cons c r ih =>
    rw [urlConsume]
    by_cases h : c = ' ' ∨ c = '"'
    · simpa [h] using List.suffix_cons c r
    · simpa [h] using ih.trans (List.suffix_cons c r)

theorem fetchExpect_suffix (w : Char) (sofar : Str) (next : Str → Str × Str)
    (hnext : ∀ r, (next r).2.IsSuffix r) :
    ∀ d, (fetchExpect w sofar next d).2.IsSuffix d := by
  intro d
  cases d with
  | nil => simp [fetchExpect]
  | cons c r =>
    rw [fetchExpect]
    by_cases h : c = w
    · simpa [h] using (hnext r).trans (List.suffix_cons c r)
    · simp [h]

theorem httpsTail_suffix (r : Str) : (httpsTail r).2.IsSuffix r := by
  refine fetchExpect_suffix _ _ _ (fun r1 => ?_) r
  refine fetchExpect_suffix _ _ _ (fun r2 => ?_) r1
  refine fetchExpect_suffix _ _ _ (fun r3 => ?_) r2
  refine fetchExpect_suffix _ _ _ (fun r4 => ?_) r3
  refine fetchExpect_suffix _ _ _ (fun r5 => ?_) r4
  refine fetchExpect_suffix _ _ _ (fun r6 => ?_) r5
  refine fetchExpect_suffix _ _ _ (fun r7 => ?_) r6
  exact urlConsume_suffix r7

theorem step_suffix (c : Char) (r : Str) : (step c r).2.IsSuffix r := by
  have hc2 : ∀ (c2 : Char) (r2 : Str), (c2 :: r2).IsSuffix (c2 :: r2) := fun _ _ =>
    List.suffix_refl _
  have hr3 : ∀ (c2 c3 : Char) (r3 : Str), r3.IsSuffix (c2 :: c3 :: r3) := fun c2 c3 r3 =>
    (List.suffix_cons c3 r3).trans (List.suffix_cons c2 (c3 :: r3))
  rw [step.eq_def]
  by_cases h1 : c = '-'
  · simp only [if_pos h1]
    cases r with
    | nil => simp
    | cons c2 r2 =>
      by_cases h2 : c2 = '-'
      · simp only [if_pos h2]
        cases r2 with
        | nil => simp
        | cons c3 r3 =>
          by_cases h3 : c3 = '-'
          · simpa [h3] using hr3 c2 c3 r3
          · by_cases h4 : c3 = '>'
            · simpa [h3, h4] using hr3 c2 c3 r3
            · simpa [h3, h4] using (List.suffix_cons c3 r3).trans (List.suffix_cons c2 _) |>.symm ▸
                ((hc2 c3 r3).trans (List.suffix_cons c2 (c3 :: r3)))
      · by_cases h5 : c2 = '>'
        · simpa [h2, h5] using (List.suffix_cons c2 r2)
        · simpa [h2, h5] using hc2 c2 r2
  · by_cases h6 : c = '<'
    · simp only [if_neg h1, if_pos h6]
      cases r with
      | nil => simp
      | cons c2 r2 =>
        by_cases h2 : c2 = '-'
        · simp only [if_pos h2]
          cases r2 with
          | nil => simp
          | cons c3 r3 =>
            by_cases h3 : c3 = '-'
            · simpa [h3] using hr3 c2 c3 r3
            · by_cases h4 : c3 = '>'
              · simpa [h3, h4] using hr3 c2 c3 r3
              · simpa [h3, h4] using (hc2 c3 r3).trans (List.suffix_cons c2 (c3 :: r3))
        · by_cases h5 : c2 = '='
          · simpa [h2, h5] using (List.suffix_cons c2 r2)
          · simpa [h2, h5] using hc2 c2 r2
    · by_cases h7 : c = '>'
      · simp only [if_neg h1, if_neg h6, if_pos h7]
        cases r with
        | nil => simp
        | cons c2 r2 =>
          by_cases h2 : c2 = '='
          · simpa [h2] using (List.suffix_cons c2 r2)
          · simpa [h2] using hc2 c2 r2
      · by_cases h8 : c = '!'
        · simp only [if_neg h1, if_neg h6, if_neg h7, if_pos h8]
          cases r with
          | nil => simp
          | cons c2 r2 =>
            by_cases h2 : c2 = '='
            · simpa [h2] using (List.suffix_cons c2 r2)
            · simpa [h2] using hc2 c2 r2
        · by_cases h9 : c = '='
          · simp only [if_neg h1, if_neg h6, if_neg h7, if_neg h8, if_pos h9]
            cases r with
            | nil => simp
            | cons c2 r2 =>
              by_cases h2 : c2 = '>'
              · simpa [h2] using (List.suffix_cons c2 r2)
              · simpa [h2] using hc2 c2 r2
          · by_cases h10 : c = 'h'
            · simpa [h1, h6, h7, h8, h9, h10] using httpsTail_suffix r
            · simp [h1, h6, h7, h8, h9, h10]

theorem substituteF_congr : ∀ (f1 f2 : Nat) (d : Str), d.length ≤ f1 → d.length ≤ f2 →
    substituteF f1 d = substituteF f2 d := by
  intro f1
  induction f1 with
  | zero =>
    intro f2 d hd1 _
    have : d = [] := List.length_eq_zero.mp (Nat.le_zero.mp hd1)
    subst this
    cases f2 <;> rfl
  | succ g1 ih =>
    intro f2 d hd1 hd2
    cases d with
    | nil => cases f2 <;> rfl
    | cons c r =>
      cases f2 with
      | zero => simp at hd2
      | succ g2 =>
        rw [substituteF, substituteF]
        have hs : (step c r).2.length ≤ r.length := (step_suffix c r).length_le
        have hr1 : r.length ≤ g1 := by simpa using hd1
        have hr2 : r.length ≤ g2 := by simpa using hd2
        rw [ih g2 (step c r).2 (le_trans hs hr1) (le_trans hs hr2)]

theorem substitute_cons (c : Char) (r : Str) :
    substitute (c :: r) = (step c r).1 ++ substitute (step c r).2 := by
  rw [substitute, substitute]
  have h1 : (c :: r).length = r.length + 1 := by simp
  rw [h1, substituteF]
  have hs : (step c r).2.length ≤ r.length := (step_suffix c r).length_le
  rw [substituteF_congr r.length (step c r).2.length (step c r).2 hs (le_refl _)]

/-! ## C3: greediness and pushback -/

/-- Claim C3: the scanner is greedy and pushes an over-fetched character back:
after committing `--` to an en dash, a continuation that extends no match is
returned to the stream and scanned afresh; in particular `---` yields one em
dash and `--!=` yields `–≠`. -/
theorem symbols_greedy_pushback (c : Char) (r : Str) (h1 : c ≠ '-') (h2 : c ≠ '>') :
    substitute ('-' :: '-' :: c :: r) = '–' :: substitute (c :: r)
    ∧ substitute ['-', '-', '-'] = ['—']
    ∧ substitute ['-', '-', '!', '='] = ['–', '≠'] := by
  refine ⟨?_, by decide, by decide⟩
  rw [substitute_cons]
  have hstep : step '-' ('-' :: c :: r) = (['–'], c :: r) := by
    rw [step.eq_def]
    simp [h1, h2]
  rw [hstep]
  rfl

/-! ## C5: inversion roundtrip on ASCII input -/

theorem urlConsume_append (s : Str) : (urlConsume s).1 ++ (urlConsume s).2 = s := by
  induction s with
  | nil => rfl
  | cons c r ih =>
    rw [urlConsume]
    by_cases h : c = ' ' ∨ c = '"'
    · simp [h]
    · simpa [h] using ih

theorem symbolsInversion_append (a b : Str) :
    symbolsInversion (a ++ b) = symbolsInversion a ++ symbolsInversion b := by
  simp [symbolsInversion]

theorem invSymChar_ascii {c : Char} (h : c.toNat ≤ 127) : invSymChar c = [c] := by
  have ne : ∀ y : Char, 127 < y.toNat → c ≠ y := by
    intro y hy e
    subst e
    exact absurd h (by omega)
  rw [invSymChar, if_neg (ne _ (by decide)), if_neg (ne _ (by decide)),
    if_neg (ne _ (by decide)), if_neg (ne _ (by decide)), if_neg (ne _ (by decide)),
    if_neg (ne _ (by decide)), if_neg (ne _ (by decide)), if_neg (ne _ (by decide)),
    if_neg (ne _ (by decide)), if_neg (ne _ (by decide)), if_neg (ne _ (by decide))]

theorem symbolsInversion_ascii {l : Str} (h : ∀ c ∈ l, c.toNat ≤ 127) :
    symbolsInversion l = l := by
  induction l with
  | nil => rfl
  | cons c r ih =>
    have hc := invSymChar_ascii (h c (by simp))
    have hr := ih fun x hx => h x (by simp [hx])
    simp [symbolsInversion] at hr
    simp [symbolsInversion, hc, hr]

theorem urlConsume_fst_mem (s : Str) : ∀ x ∈ (urlConsume s).1, x ∈ s := by
  induction s with
  | nil => intro x hx; simp [urlConsume] at hx
  | cons c r ih =>
    intro x hx
    rw [urlConsume] at hx
    by_cases h : c = ' ' ∨ c = '"'
    · simp [h] at hx
      simp [hx]
    · simp only [h, if_false] at hx
      rcases List.mem_cons.mp hx with rfl | hx2
      · simp
      · simp [ih x hx2]

theorem fetchExpect_roundtrip (w : Char) (sofar : Str) (next : Str → Str × Str)
    (hso : symbolsInversion sofar = sofar)
    (hnext : ∀ r, (∀ x ∈ r, x.toNat ≤ 127) →
      symbolsInversion (next r).1 ++ (next r).2 = sofar ++ w :: r) :
    ∀ d, (∀ x ∈ d, x.toNat ≤ 127) →
      symbolsInversion (fetchExpect w sofar next d).1
        ++ (fetchExpect w sofar next d).2 = sofar ++ d := by
  intro d hd
  cases d with
  | nil => simp [fetchExpect, hso]
  | cons c r =>
    rw [fetchExpect]
    by_cases h : c = w
    · subst h
      simpa using hnext r fun x hx => hd x (by simp [hx])
    · simp [h, hso]

theorem httpsTail_roundtrip (r : Str) (hr : ∀ x ∈ r, x.toNat ≤ 127) :
    symbolsInversion (httpsTail r).1 ++ (httpsTail r).2 = 'h' :: r := by
  have h0 : ∀ (r7 : Str), (∀ x ∈ r7, x.toNat ≤ 127) →
      symbolsInversion (httpsChars ++ (urlConsume r7).1, (urlConsume r7).2).1
        ++ (httpsChars ++ (urlConsume r7).1, (urlConsume r7).2).2
        = ['h', 't', 't', 'p', 's', ':', '/'] ++ '/' :: r7 := by
    intro r7 h7
    have hu : symbolsInversion (urlConsume r7).1 = (urlConsume r7).1 :=
      symbolsInversion_ascii fun x hx => h7 x (urlConsume_fst_mem r7 x hx)
    have hch : symbolsInversion httpsChars = httpsChars := by decide
    show symbolsInversion (httpsChars ++ (urlConsume r7).1) ++ (urlConsume r7).2
      = ['h', 't', 't', 'p', 's', ':', '/'] ++ '/' :: r7
    rw [symbolsInversion_append, hu, hch, List.append_assoc, urlConsume_append r7]
    rfl
  rw [httpsTail]
  refine fetchExpect_roundtrip _ _ _ (by decide) (fun r1 h1 => ?_) r hr
  refine fetchExpect_roundtrip _ _ _ (by decide) (fun r2 h2 => ?_) r1 h1
  refine fetchExpect_roundtrip _ _ _ (by decide) (fun r3 h3 => ?_) r2 h2
  refine fetchExpect_roundtrip _ _ _ (by decide) (fun r4 h4 => ?_) r3 h3
  refine fetchExpect_roundtrip _ _ _ (by decide) (fun r5 h5 => ?_) r4 h4
  refine fetchExpect_roundtrip _ _ _ (by decide) (fun r6 h6 => ?_) r5 h5
  refine fetchExpect_roundtrip _ _ _ (by decide) (fun r7 h7 => ?_) r6 h6
  exact h0 r7 h7

theorem step_roundtrip (c : Char) (r : Str) (hc : c.toNat ≤ 127)
    (hr : ∀ x ∈ r, x.toNat ≤ 127) :
    symbolsInversion (step c r).1 ++ (step c r).2 = c :: r := by
  have hundo : ∀ (x : Char) (xs : Str), x.toNat ≤ 127 →
      symbolsInversion [x] ++ xs = x :: xs := by
    intro x xs hx
    simp [symbolsInversion, invSymChar_ascii hx]
  rw [step.eq_def]
  by_cases h1 : c = '-'
  · subst h1
    simp only [if_pos rfl]
    cases r with
    | nil => decide
    | cons c2 r2 =>
      by_cases h2 : c2 = '-'
      · subst h2
        simp only [if_pos rfl]
        cases r2 with
        | nil => decide
        | cons c3 r3 =>
          by_cases h3 : c3 = '-'
          · subst h3; simp [symbolsInversion, invSymChar]
          · by_cases h4 : c3 = '>'
            · subst h4; simp [symbolsInversion, invSymChar]
            · simp [h3, h4, symbolsInversion, invSymChar]
      · by_cases h5 : c2 = '>'
        · subst h5; simp [h2, symbolsInversion, invSymChar]
        · simp [h2, h5, symbolsInversion, invSymChar]
  · by_cases h6 : c = '<'
    · subst h6
      simp only [if_neg h1, if_pos rfl]
      cases r with
      | nil => decide
      | cons c2 r2 =>
        by_cases h2 : c2 = '-'
        · subst h2
          simp only [if_pos rfl]
          cases r2 with
          | nil => decide
          | cons c3 r3 =>
            by_cases h3 : c3 = '-'
            · subst h3; simp [symbolsInversion, invSymChar]
            · by_cases h4 : c3 = '>'
              · subst h4; simp [symbolsInversion, invSymChar]
              · simp [h3, h4, symbolsInversion, invSymChar]
        · by_cases h5 : c2 = '='
          · subst h5; simp [h2, symbolsInversion, invSymChar]
          · simp [h2, h5, symbolsInversion, invSymChar]
    · by_cases h7 : c = '>'
      · subst h7
        simp only [if_neg h1, if_neg h6, if_pos rfl]
        cases r with
        | nil => decide
        | cons c2 r2 =>
          by_cases h2 : c2 = '='
          · subst h2; simp [symbolsInversion, invSymChar]
          · simp [h2, symbolsInversion, invSymChar]
      · by_cases h8 : c = '!'
        · subst h8
          simp only [if_neg h1, if_neg h6, if_neg h7, if_pos rfl]
          cases r with
          | nil => decide
          | cons c2 r2 =>
            by_cases h2 : c2 = '='
            · subst h2; simp [symbolsInversion, invSymChar]
            · simp [h2, symbolsInversion, invSymChar]
        · by_cases h9 : c = '='
          · subst h9
            simp only [if_neg h1, if_neg h6, if_neg h7, if_neg h8, if_pos rfl]
            cases r with
            | nil => decide
            | cons c2 r2 =>
              by_cases h2 : c2 = '>'
              · subst h2; simp [symbolsInversion, invSymChar]
              · simp [h2, symbolsInversion, invSymChar]
          · by_cases h10 : c = 'h'
            · subst h10
              simp only [if_neg h1, if_neg h6, if_neg h7, if_neg h8, if_neg h9, if_pos rfl]
              exact httpsTail_roundtrip r hr
            · simp only [if_neg h1, if_neg h6, if_neg h7, if_neg h8, if_neg h9, if_neg h10]
              exact hundo c r hc

theorem roundtrip_fueled : ∀ (n : Nat) (d : Str), d.length ≤ n →
    (∀ x ∈ d, x.toNat ≤ 127) → symbolsInversion (substitute d) = d := by
  intro n
  induction n with
  | zero =>
    intro d hd _
    have : d = [] := List.length_eq_zero.mp (Nat.le_zero.mp hd)
    subst this
    rfl
  | succ m ih =>
    intro d hd hascii
    cases d with
    | nil => rfl
    | cons c r =>
      rw [substitute_cons, symbolsInversion_append]
      have hsuf := step_suffix c r
      have hlen : (step c r).2.length ≤ m := le_trans hsuf.length_le (by simpa using hd)
      have hsub : ∀ x ∈ (step c r).2, x.toNat ≤ 127 := fun x hx =>
        hascii x (by simp [hsuf.subset hx])
      rw [ih (step c r).2 hlen hsub]
      exact step_roundtrip c r (hascii c (by simp)) fun x hx => hascii x (by simp [hx])

/-- Claim C5: for every ASCII input, `SymbolsInversion` applied to the output
of `Symbols` returns the input exactly. -/
theorem symbols_inversion_roundtrip (d : Str) (h : ∀ c ∈ d, c.toNat ≤ 127) :
    symbolsInversion (substitute d) = d :=
  roundtrip_fueled d.length d (le_refl _) h

/-- Witness for C5 at the input `--!= https://a-> <=`. -/
theorem symbols_inversion_roundtrip_witness :
    symbolsInversion (substitute
        ('-' :: '-' :: '!' :: '=' :: ' ' :: 'h' :: 't' :: 't' :: 'p' :: 's' :: ':'
          :: '/' :: '/' :: 'a' :: '-' :: '>' :: ' ' :: '<' :: '=' :: []))
      = '-' :: '-' :: '!' :: '=' :: ' ' :: 'h' :: 't' :: 't' :: 'p' :: 's' :: ':'
          :: '/' :: '/' :: 'a' :: '-' :: '>' :: ' ' :: '<' :: '=' :: [] :=
  symbols_inversion_roundtrip _ (by decide)

/-! ## C4: URL suppression -/

theorem urlConsume_dropLast_no_stop (s : Str) :
    ∀ c ∈ (urlConsume s).1.dropLast, ¬(c = ' ' ∨ c = '"') := by
  induction s with
  | nil => intro c hc; simp [urlConsume] at hc
  | cons x r ih =>
    intro c hc
    rw [urlConsume] at hc
    by_cases h : x = ' ' ∨ x = '"'
    · simp [h] at hc
    · simp only [h, if_false] at hc
      cases hp : (urlConsume r).1 with
      | nil => simp [hp] at hc
      | cons y ys =>
        rw [hp, List.dropLast_cons₂] at hc
        rcases List.mem_cons.mp hc with rfl | hc2
        · exact h
        · exact ih c (by rwa [hp])

theorem httpsTail_eval (s : Str) :
    httpsTail ('t' :: 't' :: 'p' :: 's' :: ':' :: '/' :: '/' :: s)
      = (httpsChars ++ (urlConsume s).1, (urlConsume s).2) := rfl

theorem step_h (r : Str) : step 'h' r = httpsTail r := by
  rw [step.eq_def]
  simp

/-- Claim C4: exactly the full literal `https://` enters the URL-consume
state: everything up to the first space or double-quote is copied verbatim and
scanning then resumes; every proper prefix of `https://` followed by `->`
still substitutes the arrow. -/
theorem symbols_url_suppression (s : Str) :
    substitute (httpsChars ++ s)
      = httpsChars ++ (urlConsume s).1 ++ substitute (urlConsume s).2
    ∧ (urlConsume s).1 ++ (urlConsume s).2 = s
    ∧ (∀ c ∈ (urlConsume s).1.dropLast, ¬(c = ' ' ∨ c = '"'))
    ∧ substitute (['h'] ++ ['-', '>']) = ['h'] ++ ['→']
    ∧ substitute (['h', 't'] ++ ['-', '>']) = ['h', 't'] ++ ['→']
    ∧ substitute (['h', 't', 't'] ++ ['-', '>']) = ['h', 't', 't'] ++ ['→']
    ∧ substitute (['h', 't', 't', 'p'] ++ ['-', '>']) = ['h', 't', 't', 'p'] ++ ['→']
    ∧ substitute (['h', 't', 't', 'p', 's'] ++ ['-', '>'])
        = ['h', 't', 't', 'p', 's'] ++ ['→']
    ∧ substitute (['h', 't', 't', 'p', 's', ':'] ++ ['-', '>'])
        = ['h', 't', 't', 'p', 's', ':'] ++ ['→']
    ∧ substitute (['h', 't', 't', 'p', 's', ':', '/'] ++ ['-', '>'])
        = ['h', 't', 't', 'p', 's', ':', '/'] ++ ['→']
    ∧ substitute (httpsChars ++ ['-', '>']) = httpsChars ++ ['-', '>'] := by
  refine ⟨?_, urlConsume_append s, urlConsume_dropLast_no_stop s, by decide, by decide,
    by decide, by decide, by decide, by decide, by decide, by decide⟩
  have h8 : httpsChars ++ s = 'h' :: ('t' :: 't' :: 'p' :: 's' :: ':' :: '/' :: '/' :: s) := rfl
  rw [h8, substitute_cons, step_h, httpsTail_eval]

/-- Witness for C4 at `s = "a ->"`: the `a` and the terminating space pass
verbatim, then the arrow is substituted again. -/
theorem symbols_url_suppression_witness :
    substitute (httpsChars ++ ['a', ' ', '-', '>'])
      = httpsChars ++ ['a', ' '] ++ substitute ['-', '>']
    ∧ ¬('a' = ' ' ∨ 'a' = '"') :=
  ⟨(symbols_url_suppression ['a', ' ', '-', '>']).1,
    (symbols_url_suppression ['a', ' ', '-', '>']).2.2.1 'a' (by decide)⟩

/-- Witness for C3 at `c = '!'`, `r = "="`. -/
theorem symbols_greedy_pushback_witness :
    substitute ['-', '-', '!', '='] = '–' :: substitute ['!', '='] :=
  (symbols_greedy_pushback '!' ['='] (by decide) (by decide)).1

/-! ## C6: positive/negative query split -/

theorem foldl_disable_captures (names : List Str) (q : TSQuery) :
    (names.foldl TSQuery.disable_capture q).captures
      = q.captures.filter fun c => names.all fun n => c.name != n := by
  induction names generalizing q with
  | nil => simp
  | cons n ns ih =>
    rw [List.foldl_cons, ih]
    rw [TSQuery.disable_capture, List.filter_filter]
    apply List.filter_congr
    intro c _
    simp [List.all_cons, Bool.and_comm]

theorem negative_filter_eq (q : TSQuery) (c : TSCapture) (hc : c ∈ q.captures) :
    ((q.capture_names.filter fun n => !IGNORE.isPrefixOf n).all fun n => c.name != n)
      = IGNORE.isPrefixOf c.name := by
  cases hic : IGNORE.isPrefixOf c.name with
  | true =>
    apply List.all_eq_true.mpr
    intro n hn
    rcases List.mem_filter.mp hn with ⟨_, hnig⟩
    have : c.name ≠ n := by
      intro e
      rw [← e, hic] at hnig
      simp at hnig
    simpa using this
  | false =>
    cases hall : (q.capture_names.filter fun n => !IGNORE.isPrefixOf n).all
        fun n => c.name != n with
    | false => rfl
    | true =>
      exfalso
      have hmem : c.name ∈ q.capture_names.filter fun n => !IGNORE.isPrefixOf n :=
        List.mem_filter.mpr ⟨List.mem_map_of_mem TSCapture.name hc, by simp [hic]⟩
      have := List.all_eq_true.mp hall c.name hmem
      simp at this

/-- Claim C6: `Language::new` builds a negative query exactly when some
capture name starts with the `_SRGN_IGNORE` sentinel, the negative copy keeps
exactly the sentinel captures (all others disabled), and `scope_via_query`
returns the merged positive ranges minus the merged negative ranges (the
positive ranges alone when no negative query exists), with no context
attached. -/
theorem language_query_split (q : TSQuery) :
    ((Language.new q).negative_query.isSome
      ↔ q.capture_names.any (fun n => IGNORE.isPrefixOf n) = true)
    ∧ (∀ nq, (Language.new q).negative_query = some nq →
        nq.captures = q.captures.filter fun c => IGNORE.isPrefixOf c.name)
    ∧ (Language.new q).positive_query = q
    ∧ (∀ input, scope_via_query (Language.new q) input
        = match (Language.new q).negative_query with
          | some nq => diffRanges (runQuery q input) (runQuery nq input)
          | none => runQuery q input)
    ∧ ∀ input p, p ∈ langScopeRaw (Language.new q) input → p.2 = none := by
  refine ⟨?_, ?_, rfl, fun input => rfl, ?_⟩
  · cases hhas : q.capture_names.any fun n => IGNORE.isPrefixOf n <;>
      simp [Language.new, hhas]
  · intro nq hnq
    rw [Language.new] at hnq
    cases hhas : q.capture_names.any fun n => IGNORE.isPrefixOf n with
    | false => simp [hhas] at hnq
    | true =>
      simp only [hhas, if_pos] at hnq
      have hnq' : nq = (q.capture_names.filter fun n =>
          !IGNORE.isPrefixOf n).foldl TSQuery.disable_capture q := by
        exact (Option.some_injective _ hnq).symm
      rw [hnq', foldl_disable_captures]
      apply List.filter_congr
      intro c hc
      exact negative_filter_eq q c hc
  · intro input p hp
    rcases List.mem_map.mp hp with ⟨r, _, hr⟩
    rw [← hr]

/-- Witness for C6 at the concrete query with captures `_SRGN_IGNOREfoo` and
`cap`: the negative copy keeps exactly the sentinel capture. -/
theorem language_query_split_witness :
    ((Language.new witnessQuery).negative_query.isSome
      ↔ witnessQuery.capture_names.any (fun n => IGNORE.isPrefixOf n) = true)
    ∧ (⟨[witnessCapA]⟩ : TSQuery).captures
        = witnessQuery.captures.filter fun c => IGNORE.isPrefixOf c.name :=
  ⟨(language_query_split witnessQuery).1,
    (language_query_split witnessQuery).2.1 ⟨[witnessCapA]⟩ rfl⟩

/-! ## C2: the DOS line-ending repair -/

theorem flushIn_reconstruct (off : Nat) (acc : Str) :
    reconstruct (flushIn off acc) = acc := by
  rw [flushIn]
  cases ha : acc.isEmpty with
  | true => simpa using (List.isEmpty_iff.mp ha).symm
  | false => simp [Scope.content]

theorem dosfix_reconstruct (off : Nat) (acc c : Str) :
    reconstruct (dosfixGo off acc c) = acc ++ c := by
  induction off, acc, c using dosfixGo.induct with
  | case1 off acc =>
    rw [dosfixGo]
    simpa using flushIn_reconstruct off acc
  | case2 off acc =>
    rw [dosfixGo]
    simp [reconstruct, List.map_append, flushIn_reconstruct off acc, Scope.content]
    have := flushIn_reconstruct off acc
    simp [reconstruct] at this
    simp [this]
  | case3 off acc rest2 ih =>
    rw [dosfixGo]
    simp only [if_pos]
    rw [reconstruct, List.map_append, List.flatten_append, ← reconstruct, ← reconstruct,
      flushIn_reconstruct off acc]
    simp [reconstruct, Scope.content] at ih ⊢
    simp [ih]
  | case4 off acc c2 rest2 hne ih =>
    rw [dosfixGo]
    simp only [if_pos, if_neg hne]
    rw [ih]
    simp
  | case5 off acc c rest hne ih =>
    rw [dosfixGo.eq_def]
    cases rest with
    | nil =>
      simp only [if_neg hne]
      rw [ih]
      simp
    | cons c2 rest2 =>
      simp only [if_neg hne]
      rw [ih]
      simp

theorem dosfix_nonempty (off : Nat) (acc c : Str) :
    ∀ s ∈ dosfixGo off acc c, s.is_empty = false := by
  have hflush : ∀ off acc, ∀ s ∈ flushIn off acc, s.is_empty = false := by
    intro off acc s hs
    rw [flushIn] at hs
    cases ha : acc.isEmpty with
    | true => simp [ha] at hs
    | false =>
      rw [ha] at hs
      simp at hs
      simp [hs, Scope.is_empty, Scope.content, ha]
  induction off, acc, c using dosfixGo.induct with
  | case1 off acc =>
    intro s hs
    rw [dosfixGo] at hs
    exact hflush off acc s hs
  | case2 off acc =>
    intro s hs
    rw [dosfixGo] at hs
    rcases List.mem_append.mp hs with hs1 | hs2
    · exact hflush off acc s hs1
    · simp at hs2
      simp [hs2, Scope.is_empty, Scope.content]
  | case3 off acc rest2 ih =>
    intro s hs
    rw [dosfixGo] at hs
    simp only [if_pos] at hs
    rcases List.mem_append.mp hs with hs1 | hs2
    · exact hflush off acc s hs1
    · rcases List.mem_cons.mp hs2 with rfl | hs3
      · simp [Scope.is_empty, Scope.content]
      · exact ih s hs3
  | case4 off acc c2 rest2 hne ih =>
    intro s hs
    rw [dosfixGo] at hs
    simp only [if_pos, if_neg hne] at hs
    exact ih s hs
  | case5 off acc c rest hne ih =>
    intro s hs
    rw [dosfixGo.eq_def] at hs
    cases rest with
    | nil =>
      simp only [if_neg hne] at hs
      exact ih s hs
    | cons c2 rest2 =>
      simp only [if_neg hne] at hs
      exact ih s hs

theorem dosfix_out_head (off : Nat) (acc c : Str) :
    ∀ s ∈ dosfixGo off acc c, s.isIn = false → s.content.head? = some '\r' := by
  have hflush : ∀ off acc, ∀ s ∈ flushIn off acc, s.isIn = false → False := by
    intro off acc s hs hout
    rw [flushIn] at hs
    cases ha : acc.isEmpty with
    | true => simp [ha] at hs
    | false =>
      rw [ha] at hs
      simp at hs
      rw [hs] at hout
      simp [Scope.isIn] at hout
  induction off, acc, c using dosfixGo.induct with
  | case1 off acc =>
    intro s hs hout
    rw [dosfixGo] at hs
    exact absurd hout (by simpa using (hflush off acc s hs))
  | case2 off acc =>
    intro s hs hout
    rw [dosfixGo] at hs
    rcases List.mem_append.mp hs with hs1 | hs2
    · exact absurd hout (by simpa using (hflush off acc s hs1))
    · simp at hs2
      simp [hs2, Scope.content]
  | case3 off acc rest2 ih =>
    intro s hs hout
    rw [dosfixGo] at hs
    simp only [if_pos] at hs
    rcases List.mem_append.mp hs with hs1 | hs2
    · exact absurd hout (by simpa using (hflush off acc s hs1))
    · rcases List.mem_cons.mp hs2 with rfl | hs3
      · simp [Scope.content]
      · exact ih s hs3 hout
  | case4 off acc c2 rest2 hne ih =>
    intro s hs hout
    rw [dosfixGo] at hs
    simp only [if_pos, if_neg hne] at hs
    exact ih s hs hout
  | case5 off acc c rest hne ih =>
    intro s hs hout
    rw [dosfixGo.eq_def] at hs
    cases rest with
    | nil =>
      simp only [if_neg hne] at hs
      exact ih s hs hout
    | cons c2 rest2 =>
      simp only [if_neg hne] at hs
      exact ih s hs hout

theorem getLast?_append_cons {α : Type} (l1 : List α) (a : α) (l2 : List α) :
    (l1 ++ a :: l2).getLast? = (a :: l2).getLast? := by
  induction l1 with
  | nil => rfl
  | cons x xs ih =>
    cases xs with
    | nil => simp
    | cons y ys => exact (List.getLast?_cons_cons).trans ih

theorem dosfixGo_eval_cr (off : Nat) (acc : Str) :
    dosfixGo off acc ['\r']
      = flushIn off acc ++ [Scope.Out ['\r'] (off + acc.length, off + acc.length + 1)] := by
  simp [dosfixGo]

theorem dosfixGo_eval_crlf (off : Nat) (acc rest2 : Str) :
    dosfixGo off acc ('\r' :: '\n' :: rest2)
      = flushIn off acc
        ++ Scope.Out ['\r', '\n'] (off + acc.length, off + acc.length + 2)
          :: dosfixGo (off + acc.length + 2) [] rest2 := by
  simp [dosfixGo]

theorem dosfixGo_eval_cr_other (off : Nat) (acc : Str) (c2 : Char) (rest2 : Str)
    (h : c2 ≠ '\n') :
    dosfixGo off acc ('\r' :: c2 :: rest2) = dosfixGo off (acc ++ ['\r']) (c2 :: rest2) := by
  rw [dosfixGo.eq_def]
  simp [h]

theorem dosfixGo_eval_other (off : Nat) (acc : Str) (c : Char) (rest : Str)
    (h : c ≠ '\r') :
    dosfixGo off acc (c :: rest) = dosfixGo off (acc ++ [c]) rest := by
  rw [dosfixGo.eq_def]
  simp [h]

theorem dosfix_last_safe (off : Nat) (acc c : Str) :
    (acc.getLast? = some '\r' → c ≠ []) → ∀ x, (dosfixGo off acc c).getLast? = some x →
      x.isIn = true → ¬(x.content.getLast? = some '\r') := by
  induction off, acc, c using dosfixGo.induct with
  | case1 off acc =>
    intro hinv x hx hin
    rw [dosfixGo, flushIn] at hx
    cases ha : acc.isEmpty with
    | true => simp [ha] at hx
    | false =>
      rw [ha] at hx
      simp at hx
      rw [← hx]
      simp only [Scope.content]
      intro hlast
      exact (hinv hlast) rfl
  | case2 off acc =>
    intro hinv x hx hin
    rw [dosfixGo_eval_cr] at hx
    have hx2 := hx
    rw [List.getLast?_concat] at hx2
    injection hx2 with hxx
    rw [← hxx] at hin
    simp [Scope.isIn] at hin
  | case3 off acc rest2 ih =>
    intro hinv x hx hin
    rw [dosfixGo_eval_crlf] at hx
    have hx2 := hx
    rw [getLast?_append_cons] at hx2
    cases hdd : dosfixGo (off + acc.length + 2) [] rest2 with
    | nil =>
      rw [hdd] at hx2
      simp only [List.getLast?_singleton] at hx2
      injection hx2 with hxx
      rw [← hxx] at hin
      simp [Scope.isIn] at hin
    | cons y ys =>
      rw [hdd, List.getLast?_cons_cons] at hx2
      refine ih (fun hcon => by simp at hcon) x ?_ hin
      rw [hdd]
      exact hx2
  | case4 off acc c2 rest2 hne ih =>
    intro hinv x hx hin
    rw [dosfixGo_eval_cr_other off acc c2 rest2 hne] at hx
    exact ih (fun _ => by simp) x hx hin
  | case5 off acc c rest hne ih =>
    intro hinv x hx hin
    rw [dosfixGo_eval_other off acc c rest hne] at hx
    refine ih (fun hl => ?_) x hx hin
    rw [List.getLast?_concat] at hl
    exact absurd (Option.some_injective _ hl) hne

theorem anyWindow_eq_false_iff (l : List Scope) :
    anyWindow l = false ↔ List.Chain' (fun a b => splitWindow a b = false) l := by
  induction l with
  | nil => simp [anyWindow]
  | cons a rest ih =>
    cases rest with
    | nil => simp [anyWindow]
    | cons b rest2 =>
      have hz : anyWindow (a :: b :: rest2)
          = (splitWindow a b || anyWindow (b :: rest2)) := by
        simp [anyWindow]
      rw [hz, List.chain'_cons, Bool.or_eq_false_iff, ih]

theorem chain'_of_out_head (l : List Scope)
    (h : ∀ s ∈ l, s.isIn = false → s.content.head? = some '\r') :
    List.Chain' (fun a b => splitWindow a b = false) l := by
  induction l with
  | nil => simp
  | cons x xs ih =>
    rw [List.chain'_cons']
    refine ⟨?_, ih fun s hs => h s (List.mem_cons_of_mem _ hs)⟩
    intro y hy
    cases hyin : y.isIn with
    | true => simp [splitWindow, hyin]
    | false =>
      have hmem : y ∈ xs := List.mem_of_mem_head? hy
      have hhead := h y (List.mem_cons_of_mem _ hmem) hyin
      simp [splitWindow, hhead]

theorem flatten_chain_safe (f : Scope → List Scope)
    (hchain : ∀ s, List.Chain' (fun a b => splitWindow a b = false) (f s))
    (hlast : ∀ s x, (f s).getLast? = some x → x.isIn = true →
      ¬(x.content.getLast? = some '\r')) (l : List Scope) :
    List.Chain' (fun a b => splitWindow a b = false) ((l.map f).flatten) := by
  induction l with
  | nil => simp
  | cons s rest ih =>
    rw [List.map_cons, List.flatten_cons, List.chain'_append]
    refine ⟨hchain s, ih, ?_⟩
    intro x hx y _
    cases hxin : x.isIn with
    | false => simp [splitWindow, hxin]
    | true =>
      have hsafe := hlast s x (Option.mem_def.mp hx) hxin
      have : (x.content.getLast? == some '\r') = false := by
        cases hgl : x.content.getLast? with
        | none => rfl
        | some z =>
          rw [hgl] at hsafe
          simp only [Option.some.injEq] at hsafe ⊢
          simpa using fun e => hsafe (by rw [e])
      simp [splitWindow, this]

/-- Amended claim C2: after `build`, no in-scope segment ending in `\r` is
immediately followed by an out-of-scope segment starting with `\n` — the
exact window the `apply_dos_line_endings_fix` check repairs.  (The original
claim, that *no* scope boundary at all falls inside a CRLF pair, fails: see
`crlf_boundary_counterexample`.) -/
theorem dos_fix_no_in_out_split (s : Str) (scopers : List ScoperFn) (b : ScopedViewBuilder)
    (h : explodeAll scopers (ScopedViewBuilder.new s) = some b) :
    ∃ v, b.build = some v ∧ List.Chain' (fun a c => splitWindow a c = false) v.scopes := by
  have hall := explodeAll_some h
  have hrec : reconstruct b.scopes = b.viewee := by
    have hnew : reconstruct (ScopedViewBuilder.new s).scopes = s := by
      simp [ScopedViewBuilder.new, Scope.content]
    have h2 := hall.2 (by simpa [ScopedViewBuilder.new] using hnew)
    rw [h2, hall.1]
  rw [ScopedViewBuilder.build, ScopedViewBuilder.apply_dos_line_endings_fix]
  cases hw : anyWindow b.scopes with
  | false =>
    exact ⟨⟨b.scopes⟩, by simp, (anyWindow_eq_false_iff b.scopes).mp hw⟩
  | true =>
    simp only [if_pos]
    have hsc : ∀ c r, reconstruct ((dosFixScoper c r).filter fun t => !t.is_empty) = c := by
      intro c r
      rw [List.filter_eq_self.mpr fun t ht => by
        simpa using dosfix_nonempty r.1 [] c t ht]
      simpa using dosfix_reconstruct r.1 [] c
    have hnew : reconstruct (explodeStep dosFixScoper b.scopes) = b.viewee := by
      rw [explodeStep_reconstruct dosFixScoper hsc b.scopes, hrec]
    rw [ScopedViewBuilder.explode]
    simp only [hnew, if_pos, Option.map_some]
    refine ⟨⟨explodeStep dosFixScoper b.scopes⟩, rfl, ?_⟩
    refine flatten_chain_safe _ ?_ ?_ b.scopes
    · intro t
      by_cases hte : t.is_empty = true
      · simp [hte]
      · cases t with
        | In c r ctx =>
          simp only [hte, if_neg, Bool.not_eq_true]
          have hne : ∀ x ∈ dosfixGo r.1 [] c, (!x.is_empty) = true := fun x hx => by
            simp [dosfix_nonempty r.1 [] c x hx]
          rw [show dosFixScoper c r = dosfixGo r.1 [] c from rfl,
            List.filter_eq_self.mpr hne]
          exact chain'_of_out_head _ (dosfix_out_head r.1 [] c)
        | Out c r =>
          simp only [hte, if_neg, Bool.not_eq_true]
          exact List.chain'_singleton _
    · intro t x hx hxin
      by_cases hte : t.is_empty = true
      · simp [hte] at hx
      · cases t with
        | In c r ctx =>
          simp only [hte, if_neg, Bool.not_eq_true] at hx
          have hne : ∀ y ∈ dosfixGo r.1 [] c, (!y.is_empty) = true := fun y hy => by
            simp [dosfix_nonempty r.1 [] c y hy]
          rw [show dosFixScoper c r = dosfixGo r.1 [] c from rfl,
            List.filter_eq_self.mpr hne] at hx
          exact dosfix_last_safe r.1 [] c (by simp) x hx hxin
        | Out c r =>
          simp only [hte, if_neg, Bool.not_eq_true] at hx
          simp at hx
          rw [← hx] at hxin
          simp [Scope.isIn] at hxin

/-- Counterexample to C2 as stated: on the input `a\r\nb`, a scoper matching
exactly the `\n` yields the built view `[Out "a\r", In "\n", Out "b"]` — the
repair window never fires (the scope before the `\n` is `Out`, not `In`), and
a scope boundary falls between the `\r` and the `\n`. -/
theorem crlf_boundary_counterexample :
    ((explodeAll [cexScoper] (ScopedViewBuilder.new cexInput)).bind
        ScopedViewBuilder.build).map (fun v => anyBoundaryInsideCRLF v.scopes)
      = some true := by decide

/-- Witness for the amended C2 at the concrete input `a\r\nb`. -/
theorem dos_fix_no_in_out_split_witness :
    ∃ v, (ScopedViewBuilder.mk [Scope.Out ['a', '\r'] (0, 2), Scope.In ['\n'] (2, 3) none,
        Scope.Out ['b'] (3, 4)] cexInput).build = some v
      ∧ List.Chain' (fun a c => splitWindow a c = false) v.scopes :=
  dos_fix_no_in_out_split cexInput [cexScoper]
    ⟨[Scope.Out ['a', '\r'] (0, 2), Scope.In ['\n'] (2, 3) none,
      Scope.Out ['b'] (3, 4)], cexInput⟩ (by decide)

end Srgn
